import Mathlib

/-
  Verification of the product-service repository layer (src/app.py).

  Documents (Python dicts / BSON documents / Cosmos items) are modelled as
  ordered association lists of string keys and scalar values, mirroring
  Python dict semantics: assignment overwrites the value of an existing key
  in place, a new key is appended at the end, and deletion removes the key.
  Floating point numbers are modelled as rationals; no claim exercises
  float arithmetic, float formatting, or int/float cross-typed ids.
-/

namespace ProductService

/-- Scalar JSON/BSON values stored in product documents. -/
inductive Value where
  | vInt (n : Int)
  | vStr (s : String)
  | vBool (b : Bool)
  | vFloat (q : Rat)
deriving DecidableEq, Repr

/-- A document: ordered key/value pairs, as a Python dict. -/
abbrev Doc := List (String × Value)

/-- Python dict lookup: the first entry with the key. -/
def dGet : Doc → String → Option Value
  | [], _ => none
  | (k1, v1) :: kvs, k => if k1 = k then some v1 else dGet kvs k

/-- Python membership test `k in d`. -/
def dHasKey (d : Doc) (k : String) : Bool := (dGet d k).isSome

/-- Python dict assignment `d[k] = v`: overwrite in place, or append a new key. -/
def dSet : Doc → String → Value → Doc
  | [], k, v => [(k, v)]
  | (k1, v1) :: kvs, k, v =>
      if k1 = k then (k, v) :: kvs else (k1, v1) :: dSet kvs k v

/-- Python deletion `del d[k]` (keys occur at most once in a real dict). -/
def dErase (d : Doc) (k : String) : Doc := d.filter (fun kv => kv.1 ≠ k)

/-- The keys of a document, in order. -/
def dKeys (d : Doc) : List String := d.map Prod.fst

/-- Well-formed dict: keys are distinct (always true of a Python dict). -/
@[reducible] def dWF (d : Doc) : Prop := (dKeys d).Nodup

/-- Python `str()` restricted to the scalars of the model.  Floats are
never turned into strings on any path a claim exercises. -/
def pyStr : Value → String
  | .vInt n => toString n
  | .vStr s => s
  | .vBool b => if b then "True" else "False"
  | .vFloat q => toString q

/-- Python `int()` on a scalar; raises (`none`) on a non-numeric string. -/
def pyInt : Value → Option Int
  | .vInt n => some n
  | .vStr s => s.toInt?
  | .vBool b => some (if b then 1 else 0)
  | .vFloat q => some q.floor

/-- Python str.startswith, on the character lists of the strings. -/
def strStartsWith (s p : String) : Bool := p.toList.isPrefixOf s.toList

/-- Python str.lower, on the character list (the filenames handled are
ASCII, where Char.toLower agrees with Python). -/
def strToLower (s : String) : String := String.mk (s.toList.map Char.toLower)

-- ### Basic dictionary lemmas

theorem dGet_dSet_self (d : Doc) (k : String) (v : Value) :
    dGet (dSet d k v) k = some v := by
  induction d with
  | nil => simp [dGet, dSet]
  | cons kv kvs ih =>
    obtain ⟨k1, v1⟩ := kv
    by_cases h : k1 = k <;> simp [dGet, dSet, h, ih]

theorem dGet_dSet_ne (d : Doc) (k k' : String) (v : Value) (h : k' ≠ k) :
    dGet (dSet d k' v) k = dGet d k := by
  induction d with
  | nil => simp [dGet, dSet, h]
  | cons kv kvs ih =>
    obtain ⟨k1, v1⟩ := kv
    by_cases h1 : k1 = k' <;> by_cases h2 : k1 = k <;>
      simp_all [dGet, dSet]

theorem dGet_dErase_ne (d : Doc) (k k' : String) (h : k' ≠ k) :
    dGet (dErase d k') k = dGet d k := by
  induction d with
  | nil => simp [dGet, dErase]
  | cons kv kvs ih =>
    obtain ⟨k1, v1⟩ := kv
    by_cases h1 : k1 = k' <;> by_cases h2 : k1 = k <;>
      simp_all [dGet, dErase, List.filter]

theorem dGet_dErase_self (d : Doc) (k : String) :
    dGet (dErase d k) k = none := by
  induction d with
  | nil => simp [dGet, dErase]
  | cons kv kvs ih =>
    obtain ⟨k1, v1⟩ := kv
    by_cases h1 : k1 = k <;> simp_all [dGet, dErase, List.filter]

theorem dSet_dSet (d : Doc) (k : String) (v1 v2 : Value) :
    dSet (dSet d k v1) k v2 = dSet d k v2 := by
  induction d with
  | nil => simp [dSet]
  | cons kv kvs ih =>
    obtain ⟨k1, w⟩ := kv
    by_cases h : k1 = k <;> simp [dSet, h, ih]

theorem dSet_eq_of_dGet (d : Doc) (k : String) (v : Value)
    (h : dGet d k = some v) : dSet d k v = d := by
  induction d with
  | nil => simp [dGet] at h
  | cons kv kvs ih =>
    obtain ⟨k1, w⟩ := kv
    by_cases h1 : k1 = k
    · subst h1
      simp [dGet] at h
      simp [dSet, h]
    · simp [dGet, h1] at h
      simp [dSet, h1, ih h]

theorem dHasKey_of_dGet (d : Doc) (k : String) (v : Value)
    (h : dGet d k = some v) : dHasKey d k = true := by
  simp [dHasKey, h]

theorem dKeys_cons (k1 : String) (v1 : Value) (kvs : Doc) :
    dKeys ((k1, v1) :: kvs) = k1 :: dKeys kvs := rfl

theorem dGet_isSome_of_mem_keys (d : Doc) (k : String)
    (h : k ∈ dKeys d) : (dGet d k).isSome := by
  induction d with
  | nil => simp [dKeys] at h
  | cons kv kvs ih =>
    obtain ⟨k1, v1⟩ := kv
    by_cases h1 : k1 = k
    · simp [dGet, h1]
    · rw [dKeys_cons] at h
      rcases List.mem_cons.mp h with h | h
      · exact absurd h.symm h1
      · simpa [dGet, h1] using ih h

theorem mem_keys_of_dGet (d : Doc) (k : String) (v : Value)
    (h : dGet d k = some v) : k ∈ dKeys d := by
  induction d with
  | nil => simp [dGet] at h
  | cons kv kvs ih =>
    obtain ⟨k1, v1⟩ := kv
    by_cases h1 : k1 = k
    · simp [dKeys_cons, h1]
    · simp [dGet, h1] at h
      rw [dKeys_cons]
      exact List.mem_cons.mpr (Or.inr (ih h))

theorem dKeys_dSet_of_mem (d : Doc) (k : String) (v : Value)
    (h : k ∈ dKeys d) : dKeys (dSet d k v) = dKeys d := by
  induction d with
  | nil => simp [dKeys] at h
  | cons kv kvs ih =>
    obtain ⟨k1, v1⟩ := kv
    by_cases h1 : k1 = k
    · simp [dSet, dKeys_cons, h1]
    · rw [dKeys_cons] at h
      rcases List.mem_cons.mp h with h | h
      · exact absurd h.symm h1
      · simp [dSet, h1, dKeys_cons, ih h]

theorem dSet_append_of_mem (d e : Doc) (k : String) (v : Value)
    (h : k ∈ dKeys d) : dSet (d ++ e) k v = dSet d k v ++ e := by
  induction d with
  | nil => simp [dKeys] at h
  | cons kv kvs ih =>
    obtain ⟨k1, v1⟩ := kv
    by_cases h1 : k1 = k
    · simp [dSet, h1]
    · rw [dKeys_cons] at h
      rcases List.mem_cons.mp h with h | h
      · exact absurd h.symm h1
      · simp [dSet, h1, ih h]

theorem dGet_append (d e : Doc) (k : String) :
    dGet (d ++ e) k = ((dGet d k).rec (dGet e k) (fun v => some v)) := by
  induction d with
  | nil => simp [dGet]
  | cons kv kvs ih =>
    obtain ⟨k1, v1⟩ := kv
    by_cases h1 : k1 = k <;> simp [dGet, h1, ih]

theorem dGet_append_left (d e : Doc) (k : String) (v : Value)
    (h : dGet d k = some v) : dGet (d ++ e) k = some v := by
  rw [dGet_append, h]

theorem dGet_append_right (d e : Doc) (k : String)
    (h : dGet d k = none) : dGet (d ++ e) k = dGet e k := by
  rw [dGet_append, h]

theorem dErase_append (d e : Doc) (k : String) :
    dErase (d ++ e) k = dErase d k ++ dErase e k := by
  simp [dErase, List.filter_append]

theorem dErase_of_not_mem (d : Doc) (k : String)
    (h : k ∉ dKeys d) : dErase d k = d := by
  induction d with
  | nil => simp [dErase]
  | cons kv kvs ih =>
    obtain ⟨k1, v1⟩ := kv
    rw [dKeys_cons] at h
    have h1 : k1 ≠ k := fun hk => h (List.mem_cons.mpr (Or.inl hk.symm))
    have h2 : k ∉ dKeys kvs := fun hk => h (List.mem_cons.mpr (Or.inr hk))
    simp [dErase, List.filter, h1] at ih ⊢
    exact ih h2

theorem dGet_none_of_not_mem (d : Doc) (k : String)
    (h : k ∉ dKeys d) : dGet d k = none := by
  cases hq : dGet d k with
  | none => rfl
  | some v => exact absurd (mem_keys_of_dGet d k v hq) h

-- ### BSON comparison (MongoDB query / sort semantics)

/-- BSON equality as used by Mongo field matches: numerics compare across
int/double, other types compare only within their own type. -/
def bsonEq : Value → Value → Bool
  | .vInt a, .vInt b => decide (a = b)
  | .vInt a, .vFloat q => decide ((a : Rat) = q)
  | .vFloat q, .vInt a => decide (q = (a : Rat))
  | .vFloat a, .vFloat b => decide (a = b)
  | .vStr a, .vStr b => decide (a = b)
  | .vBool a, .vBool b => decide (a = b)
  | _, _ => false

theorem bsonEq_refl (v : Value) : bsonEq v v = true := by
  cases v <;> simp [bsonEq]

theorem bsonEq_vInt (a b : Int) : bsonEq (.vInt a) (.vInt b) = decide (a = b) := by
  simp [bsonEq]

/-- Rank of a (possibly missing) value in the BSON sort order:
missing < numbers < strings < booleans. -/
def valRank : Option Value → Nat
  | none => 0
  | some (.vInt _) => 1
  | some (.vFloat _) => 1
  | some (.vStr _) => 2
  | some (.vBool _) => 3

/-- Numeric content of a value (ints and doubles compare as numbers). -/
def numVal : Value → Rat
  | .vInt n => (n : Rat)
  | .vFloat q => q
  | _ => 0

/-- BSON strict order on (possibly missing) field values, restricted to the
scalar types of the model.  Used by the sort in MongoRepository.add. -/
def bsonLt (a b : Option Value) : Bool :=
  if valRank a ≠ valRank b then decide (valRank a < valRank b)
  else match a, b with
    | some (.vStr s), some (.vStr t) => decide (s < t)
    | some (.vBool s), some (.vBool t) => !s && t
    | some x, some y => decide (numVal x < numVal y)
    | _, _ => false

theorem bsonLt_vInt (a b : Int) :
    bsonLt (some (.vInt a)) (some (.vInt b)) = decide (a < b) := by
  simp [bsonLt, valRank, numVal]

-- ### MongoRepository (src/app.py lines 21-56)

/-- State of the Mongo collection: the stored documents, in insertion
order, plus a counter used to generate fresh ObjectId values (the concrete
ObjectId strings are irrelevant to every claim). -/
structure MongoState where
  docs : List Doc
  nextOid : Nat
deriving DecidableEq, Repr

/-- The predicate of the Mongo filter `{"id": pid}` on a stored document. -/
def mongoIdMatch (d : Doc) (pid : Value) : Bool :=
  match dGet d "id" with
  | some v => bsonEq v pid
  | none => false

/-- pymongo insert_one: the driver adds a fresh `_id` to the passed dict
unless the dict already carries one; the stored document is that dict.
Returns the new state and the stored document. -/
def mongoInsertOne (s : MongoState) (d : Doc) : MongoState × Doc :=
  let stored := if dHasKey d "_id" then d else dSet d "_id" (.vStr ("oid" ++ toString s.nextOid))
  (⟨s.docs ++ [stored], s.nextOid + 1⟩, stored)

/-- `find_one(sort=[("id", -1)])`: the stored document whose `"id"` field is
greatest in the BSON order (missing fields sort below every value; the
tie-break among equal ids is engine-internal and irrelevant here). -/
def findOneSortIdDesc : List Doc → Option Doc
  | [] => none
  | d :: ds =>
    match findOneSortIdDesc ds with
    | none => some d
    | some b => if bsonLt (dGet b "id") (dGet d "id") then some d else some b

/-- Python `last_product['id'] + 1`: raises TypeError on a string id. -/
def pyAddOneToId : Value → Option Value
  | .vInt n => some (.vInt (n + 1))
  | .vFloat q => some (.vFloat (q + 1))
  | .vBool b => some (.vInt ((if b then (1 : Int) else 0) + 1))
  | .vStr _ => none

/-- MongoRepository.get_all: `find({}, ({'_id': 0}))` projects out only the
native `_id` key. -/
def mongo_get_all (s : MongoState) : List Doc :=
  s.docs.map (fun d => dErase d "_id")

/-- MongoRepository.get_one: first document matching `{"id": pid}`, with
`_id` projected out. -/
def mongo_get_one (s : MongoState) (pid : Value) : Option Doc :=
  (s.docs.find? (fun d => mongoIdMatch d pid)).map (fun d => dErase d "_id")

/-- MongoRepository.add: read the document with the maximal id, assign
`max + 1` (or 1 on an empty collection), insert, and return the submitted
dict without the driver-added `_id`.  `none` models the uncaught TypeError
and KeyError paths of the source (string id, document without id). -/
def mongo_add (s : MongoState) (product : Doc) : Option (MongoState × Doc) :=
  match findOneSortIdDesc s.docs with
  | none =>
    let r := mongoInsertOne s (dSet product "id" (.vInt 1))
    some (r.1, dErase r.2 "_id")
  | some lp => do
    let idv ← dGet lp "id"
    let newIdV ← pyAddOneToId idv
    let r := mongoInsertOne s (dSet product "id" newIdV)
    some (r.1, dErase r.2 "_id")

/-- The `$set` merge of the submitted product into a stored document:
every submitted field is written over the stored document; fields the
submission does not mention are left in place. -/
def applySet (d : Doc) (product : Doc) : Doc :=
  product.foldl (fun acc kv => dSet acc kv.1 kv.2) d

/-- `update_one(filter, set)` on the document list: `$set` merges the
submitted fields into the first matching document; `none` when no document
matches (matched_count == 0). -/
def mongoUpdateDocs (docs : List Doc) (targetId : Value) (product : Doc) :
    Option (List Doc) :=
  match docs with
  | [] => none
  | d :: ds =>
    if mongoIdMatch d targetId then some (applySet d product :: ds)
    else (mongoUpdateDocs ds targetId product).map (fun ds' => d :: ds')

/-- MongoRepository.update: `$set` by id, `None` when nothing matched, else
re-read through get_one.  The outer `none` models the KeyError on a product
without an `id` key. -/
def mongo_update (s : MongoState) (product : Doc) :
    Option (MongoState × Option Doc) := do
  let targetId ← dGet product "id"
  match mongoUpdateDocs s.docs targetId product with
  | none => some (s, none)
  | some docs' =>
    let s' : MongoState := ⟨docs', s.nextOid⟩
    some (s', mongo_get_one s' targetId)

/-- Remove the first document satisfying the predicate; `none` when no
document matches. -/
def removeFirst (p : Doc → Bool) : List Doc → Option (List Doc)
  | [] => none
  | d :: ds => if p d then some ds else (removeFirst p ds).map (fun ds' => d :: ds')

/-- MongoRepository.delete: `delete_one` by id, reporting deleted_count > 0. -/
def mongo_delete (s : MongoState) (pid : Value) : MongoState × Bool :=
  match removeFirst (fun d => mongoIdMatch d pid) s.docs with
  | some docs' => (⟨docs', s.nextOid⟩, true)
  | none => (s, false)

/-- MongoRepository.count: count_documents of the whole collection. -/
def mongo_count (s : MongoState) : Nat := s.docs.length

/-- MongoRepository.seed_many: insert_many, one driver insert per document. -/
def mongo_seed_many (s : MongoState) (products : List Doc) : MongoState :=
  products.foldl (fun st p => (mongoInsertOne st p).1) s

-- ### CosmosRepository (src/app.py lines 58-143)
--
-- The container is a list of stored items, possibly spanning several
-- partition values; a repository instance is scoped by a partition field
-- name and a partition value fixed at construction.

/-- The Cosmos partition filter c.pkField = pkValue of the scoped queries. -/
def inPartition (pkField pkValue : String) (d : Doc) : Bool :=
  decide (dGet d pkField = some (.vStr pkValue))

/-- CosmosRepository._to_cosmos: string primary key, integer shadow key
`int_id`, injected partition field.  `none` models the uncaught KeyError
(no id) and ValueError (non-numeric id) of the source. -/
def toCosmos (pkField pkValue : String) (product : Doc) : Option Doc := do
  let idv ← dGet product "id"
  let n ← pyInt idv
  let p := dSet product "id" (.vStr (pyStr idv))
  let p := dSet p "int_id" (.vInt n)
  some (dSet p pkField (.vStr pkValue))

/-- CosmosRepository._from_cosmos: drop every key starting with an
underscore, restore `id` from `int_id`, drop `int_id` and the partition
field. -/
def fromCosmos (pkField : String) (doc : Doc) : Doc :=
  let d := doc.filter (fun kv => !(strStartsWith kv.1 "_"))
  let d := match dGet d "int_id" with
    | some v => dErase (dSet d "id" v) "int_id"
    | none => d
  if dHasKey d pkField then dErase d pkField else d

/-- Cosmos `read_item(item, partition_key)`: point lookup by the string
primary key inside one partition; `none` is ResourceNotFoundError. -/
def cosmosReadItem (pkField pkValue : String) (c : List Doc) (item : String) :
    Option Doc :=
  c.find? (fun d => decide (dGet d "id" = some (.vStr item)) && inPartition pkField pkValue d)

/-- CosmosRepository.get_all: partition-scoped SELECT *, each item
translated back to the application model. -/
def cosmos_get_all (pkField pkValue : String) (c : List Doc) : List Doc :=
  (c.filter (inPartition pkField pkValue)).map (fromCosmos pkField)

/-- CosmosRepository.get_one: point read by (str(pid), partition value),
translated; absent on ResourceNotFoundError. -/
def cosmos_get_one (pkField pkValue : String) (c : List Doc) (pid : Value) :
    Option Doc :=
  (cosmosReadItem pkField pkValue c (pyStr pid)).map (fromCosmos pkField)

/-- The `int_id` values of the partition-scoped items, in container order:
the domain of the `SELECT TOP 1 c.int_id ... ORDER BY c.int_id DESC` query
(items without an integer `int_id` are not ordered by it; every item this
service writes carries one). -/
def cosmosIntIds (pkField pkValue : String) (c : List Doc) : List Int :=
  (c.filter (inPartition pkField pkValue)).filterMap (fun d =>
    match dGet d "int_id" with
    | some (.vInt n) => some n
    | _ => none)

/-- Maximum of an integer list, `none` on the empty list. -/
def intListMax : List Int → Option Int
  | [] => none
  | i :: is =>
    match intListMax is with
    | none => some i
    | some m => some (max i m)

/-- CosmosRepository.add: partition-scoped max of `int_id` plus one (1 on an
empty scope), id injected into the submitted dict, translated item created.
The fresh id is an integer, so the translation cannot fail. -/
def cosmos_add (pkField pkValue : String) (c : List Doc) (product : Doc) :
    Option (List Doc × Doc) :=
  let newId : Int :=
    match intListMax (cosmosIntIds pkField pkValue c) with
    | some m => m + 1
    | none => 1
  let p := dSet product "id" (.vInt newId)
  match toCosmos pkField pkValue p with
  | some stored => some (c ++ [stored], p)
  | none => none

/-- Cosmos `upsert_item`: replace the item with the same primary key in the
partition of the written item, or create it. -/
def cosmosUpsert (pkField pkValue : String) (c : List Doc) (p : Doc) : List Doc :=
  match c with
  | [] => [p]
  | d :: ds =>
    if decide (dGet d "id" = dGet p "id") && inPartition pkField pkValue d then p :: ds
    else d :: cosmosUpsert pkField pkValue ds p

/-- CosmosRepository.update: existence check through get_one (a falsy — in
particular empty — result returns None), then upsert of the translated
document; the submitted dict is returned as-is. -/
def cosmos_update (pkField pkValue : String) (c : List Doc) (product : Doc) :
    Option (List Doc × Option Doc) := do
  let pidv ← dGet product "id"
  match cosmos_get_one pkField pkValue c pidv with
  | none => some (c, none)
  | some g =>
    if g.isEmpty then some (c, none)
    else do
      let p ← toCosmos pkField pkValue product
      some (cosmosUpsert pkField pkValue c p, some product)

/-- CosmosRepository.delete: `delete_item(str(pid), partition)`; False on
ResourceNotFoundError. -/
def cosmos_delete (pkField pkValue : String) (c : List Doc) (pid : Value) :
    List Doc × Bool :=
  match removeFirst (fun d =>
      decide (dGet d "id" = some (.vStr (pyStr pid))) && inPartition pkField pkValue d) c with
  | some c' => (c', true)
  | none => (c, false)

/-- CosmosRepository.count: partition-scoped COUNT(1). -/
def cosmos_count (pkField pkValue : String) (c : List Doc) : Nat :=
  (c.filter (inPartition pkField pkValue)).length

/-- CosmosRepository.seed_many: one translated create_item per product. -/
def cosmos_seed_many (pkField pkValue : String) (c : List Doc)
    (products : List Doc) : Option (List Doc) :=
  products.foldlM (fun acc p => (toCosmos pkField pkValue p).map (fun st => acc ++ [st])) c

-- ### HTTP layer (the POST / route, src/app.py lines 199-204)

/-- An HTTP response of the JSON routes. -/
inductive Resp where
  | okJson (d : Doc)
  | err (status : Nat) (msg : String)
deriving DecidableEq, Repr

/-- The POST / handler, generic over the active repository: a missing body
and a falsy (empty) JSON object are both rejected with 400 before the
repository is consulted. -/
def add_product {σ : Type} (addImpl : σ → Doc → Option (σ × Doc)) (s : σ)
    (body : Option Doc) : Option (σ × Resp) :=
  match body with
  | none => some (s, .err 400 "Invalid input")
  | some d =>
    if d.isEmpty then some (s, .err 400 "Invalid input")
    else (addImpl s d).map (fun r => (r.1, .okJson r.2))

-- ### Image handling (src/app.py lines 221-252)

/-- Blob container: named blobs with their contents (bytes left opaque). -/
abbrev BlobStore := List (String × String)

/-- Last index of a character in a list of characters. -/
def lastIdxOf (cs : List Char) (c : Char) : Option Nat :=
  (List.range cs.length).foldl
    (fun acc i => if cs.get? i = some c then some i else acc) none

/-- os.path.splitext, extension part: the suffix from the last dot of the
final path component, except that leading dots of the component carry no
extension. -/
def splitextExt (p : String) : String :=
  let cs := p.toList
  let sepIndex : Int := match lastIdxOf cs '/' with
    | some i => (i : Int)
    | none => -1
  match lastIdxOf cs '.' with
  | none => ""
  | some dotIndex =>
    if (dotIndex : Int) > sepIndex then
      let fi := (sepIndex + 1).toNat
      if (List.range' fi (dotIndex - fi)).all (fun i => cs.get? i = some '.') then ""
      else String.mk (cs.drop dotIndex)
    else ""

/-- The stored extension: the lowercased extension of the uploaded
filename, or ".jpg" when the filename has none. -/
def uploadExt (filename : String) : String :=
  let ext0 := strToLower (splitextExt filename)
  if ext0 = "" then ".jpg" else ext0

/-- Lookup of a blob by name. -/
def blobLookup (store : BlobStore) (name : String) : Option String :=
  (store.find? (fun b => b.1 = name)).map (fun b => b.2)

/-- upload_blob with overwrite: replace the blob of that name or append. -/
def blobUpload (store : BlobStore) (name content : String) : BlobStore :=
  if store.any (fun b => b.1 = name) then
    store.map (fun b => if b.1 = name then (name, content) else b)
  else store ++ [(name, content)]

/-- The /upload handler: reject a missing file or a missing/empty productId
with 400; otherwise delete every blob whose name starts with
productId + ".", then store the file under productId + extension (the
lowercased extension of the uploaded filename, or ".jpg" when it has
none).  The error branch of the source (blob backend failure) is outside
the model. -/
def upload_image (store : BlobStore) (file : Option String)
    (filename : String) (productId : Option String) :
    BlobStore × Resp :=
  match file, productId with
  | none, _ => (store, .err 400 "File and productId required")
  | some _, none => (store, .err 400 "File and productId required")
  | some content, some pid =>
    if pid = "" then (store, .err 400 "File and productId required")
    else
      let store1 := store.filter (fun b => !(strStartsWith b.1 (pid ++ ".")))
      let newName := pid ++ uploadExt filename
      (blobUpload store1 newName content,
       .okJson [("status", .vStr "uploaded"), ("filename", .vStr newName)])

-- ### Spec-side identity formula and helper lemmas

/-- The integer ids of a list of stored documents, in order. -/
def intIdsOf (docs : List Doc) : List Int :=
  docs.filterMap (fun d =>
    match dGet d "id" with
    | some (.vInt n) => some n
    | _ => none)

/-- Modelled from the spec words of the id-assignment policy: the next id
is 1 + max(existing ids), or 1 if the scope is empty. -/
def specNextIdOf (ids : List Int) : Int :=
  match intListMax ids with
  | none => 1
  | some m => m + 1

/-- Store invariant used by the identity claims: every stored document
carries an integer id. -/
def allIntIds (docs : List Doc) : Prop :=
  ∀ d ∈ docs, ∃ n : Int, dGet d "id" = some (Value.vInt n)

theorem intListMax_eq_none (ids : List Int) : intListMax ids = none ↔ ids = [] := by
  cases ids with
  | nil => simp [intListMax]
  | cons i is =>
    simp only [intListMax]
    cases intListMax is <;> simp

theorem findOneSortIdDesc_eq_none (docs : List Doc) :
    findOneSortIdDesc docs = none ↔ docs = [] := by
  cases docs with
  | nil => simp [findOneSortIdDesc]
  | cons d ds =>
    simp only [findOneSortIdDesc]
    cases findOneSortIdDesc ds with
    | none => simp
    | some b =>
      by_cases hb : bsonLt (dGet b "id") (dGet d "id") = true <;> simp [hb]

theorem findOneSortIdDesc_max : ∀ docs : List Doc, allIntIds docs → ∀ m : Int,
    intListMax (intIdsOf docs) = some m →
    ∃ lp, findOneSortIdDesc docs = some lp ∧ dGet lp "id" = some (.vInt m) := by
  intro docs
  induction docs with
  | nil =>
    intro _ m hm
    simp [intIdsOf, intListMax] at hm
  | cons d ds ih =>
    intro h m hm
    obtain ⟨nd, hnd⟩ := h d (List.mem_cons_self d ds)
    have hids : intIdsOf (d :: ds) = nd :: intIdsOf ds := by
      simp [intIdsOf, hnd]
    rw [hids] at hm
    cases hrec : findOneSortIdDesc ds with
    | none =>
      have hds : ds = [] := (findOneSortIdDesc_eq_none ds).mp hrec
      subst hds
      simp [intIdsOf, intListMax] at hm
      exact ⟨d, by simp [findOneSortIdDesc, hrec], by rw [hnd, hm]⟩
    | some b =>
      have hds : ds ≠ [] := by
        intro he
        rw [he] at hrec
        simp [findOneSortIdDesc] at hrec
      have hmax : ∃ m', intListMax (intIdsOf ds) = some m' := by
        cases hq : intListMax (intIdsOf ds) with
        | none =>
          have h0 : intIdsOf ds = [] := (intListMax_eq_none _).mp hq
          cases hcs : ds with
          | nil => exact absurd hcs hds
          | cons e es =>
            obtain ⟨ne, hne⟩ := h e (by
              rw [hcs]
              exact List.mem_cons_of_mem _ (List.mem_cons_self e es))
            rw [hcs] at h0
            simp [intIdsOf, hne] at h0
        | some m' => exact ⟨m', rfl⟩
      obtain ⟨m', hm'⟩ := hmax
      obtain ⟨lp', hlp', hid'⟩ := ih (fun e he => h e (List.mem_cons_of_mem _ he)) m' hm'
      rw [hrec] at hlp'
      obtain rfl : b = lp' := by injection hlp'
      simp only [intListMax, hm'] at hm
      obtain rfl : m = max nd m' := by injection hm with hmm; exact hmm.symm
      by_cases hlt : m' < nd
      · refine ⟨d, ?_, ?_⟩
        · simp [findOneSortIdDesc, hrec, hid', hnd, bsonLt_vInt, hlt]
        · rw [hnd, max_eq_left (le_of_lt hlt)]
      · refine ⟨b, ?_, ?_⟩
        · simp [findOneSortIdDesc, hrec, hid', hnd, bsonLt_vInt, hlt]
        · rw [hid', max_eq_right (not_lt.mp hlt)]

theorem mongoInsertOne_spec (s : MongoState) (p : Doc) :
    ∃ stored, mongoInsertOne s p = (⟨s.docs ++ [stored], s.nextOid + 1⟩, stored)
      ∧ ∀ k, k ≠ "_id" → dGet stored k = dGet p k := by
  by_cases h : dHasKey p "_id" = true
  · exact ⟨p, by simp [mongoInsertOne, h], fun k _ => rfl⟩
  · refine ⟨dSet p "_id" (.vStr ("oid" ++ toString s.nextOid)), by simp [mongoInsertOne, h], ?_⟩
    intro k hk
    exact dGet_dSet_ne p k "_id" _ (Ne.symm hk)

theorem toCosmos_of_intId (pkField pkValue : String) (product : Doc) (n : Int)
    (h : dGet product "id" = some (.vInt n)) :
    toCosmos pkField pkValue product =
      some (dSet (dSet (dSet product "id" (.vStr (toString n))) "int_id" (.vInt n))
        pkField (.vStr pkValue)) := by
  simp only [toCosmos, h, Option.bind_eq_bind, Option.some_bind, pyInt, pyStr]

/-- C1: on either backend, add assigns 1 + the maximum id in the scope (1
on an empty scope) to both the stored document and the returned product,
overriding any id the client supplied. -/
theorem C1_add_assigns_next_id :
    (∀ (s : MongoState) (product : Doc), allIntIds s.docs →
      ∃ stored, mongo_add s product =
          some (⟨s.docs ++ [stored], s.nextOid + 1⟩, dErase stored "_id")
        ∧ dGet stored "id" = some (.vInt (specNextIdOf (intIdsOf s.docs)))
        ∧ dGet (dErase stored "_id") "id" = some (.vInt (specNextIdOf (intIdsOf s.docs)))
        ∧ (s.docs = [] → specNextIdOf (intIdsOf s.docs) = 1))
  ∧ (∀ (pkField pkValue : String) (c : List Doc) (product : Doc),
      pkField ≠ "id" → pkField ≠ "int_id" →
      ∃ stored ret, cosmos_add pkField pkValue c product = some (c ++ [stored], ret)
        ∧ dGet ret "id" = some (.vInt (specNextIdOf (cosmosIntIds pkField pkValue c)))
        ∧ dGet stored "int_id" = some (.vInt (specNextIdOf (cosmosIntIds pkField pkValue c)))
        ∧ (c.filter (inPartition pkField pkValue) = [] →
            specNextIdOf (cosmosIntIds pkField pkValue c) = 1)) := by
  constructor
  · rintro ⟨docs, noid⟩ product h
    cases docs with
    | nil =>
      obtain ⟨stored, hins, hget⟩ :=
        mongoInsertOne_spec ⟨[], noid⟩ (dSet product "id" (.vInt 1))
      refine ⟨stored, ?_, ?_, ?_, fun _ => rfl⟩
      · simp only [mongo_add, findOneSortIdDesc, hins]
      · rw [hget "id" (by decide), dGet_dSet_self]
        rfl
      · rw [dGet_dErase_ne stored "id" "_id" (by decide), hget "id" (by decide),
          dGet_dSet_self]
        rfl
    | cons d ds =>
      have hm : ∃ m, intListMax (intIdsOf (d :: ds)) = some m := by
        cases hq : intListMax (intIdsOf (d :: ds)) with
        | none =>
          have h0 : intIdsOf (d :: ds) = [] := (intListMax_eq_none _).mp hq
          obtain ⟨nd, hnd⟩ := h d (List.mem_cons_self d ds)
          simp [intIdsOf, hnd] at h0
        | some m => exact ⟨m, rfl⟩
      obtain ⟨m, hm⟩ := hm
      obtain ⟨lp, hlp, hlpid⟩ := findOneSortIdDesc_max (d :: ds) h m hm
      obtain ⟨stored, hins, hget⟩ :=
        mongoInsertOne_spec ⟨d :: ds, noid⟩ (dSet product "id" (.vInt (m + 1)))
      have hspec : specNextIdOf (intIdsOf (d :: ds)) = m + 1 := by
        simp [specNextIdOf, hm]
      refine ⟨stored, ?_, ?_, ?_, fun he => by simp at he⟩
      · simp only [mongo_add, hlp, hlpid, Option.bind_eq_bind, Option.some_bind,
          pyAddOneToId, hins]
      · rw [hget "id" (by decide), dGet_dSet_self, hspec]
      · rw [dGet_dErase_ne stored "id" "_id" (by decide), hget "id" (by decide),
          dGet_dSet_self, hspec]
  · intro pkField pkValue c product hpk1 hpk2
    set newId : Int := specNextIdOf (cosmosIntIds pkField pkValue c) with hnew
    have hcode :
        (match intListMax (cosmosIntIds pkField pkValue c) with
          | some m => m + 1
          | none => 1) = newId := by
      cases hq : intListMax (cosmosIntIds pkField pkValue c) <;>
        simp [hnew, specNextIdOf, hq]
    have hgid : dGet (dSet product "id" (.vInt newId)) "id" = some (.vInt newId) :=
      dGet_dSet_self product "id" _
    have htc := toCosmos_of_intId pkField pkValue (dSet product "id" (.vInt newId)) newId hgid
    refine ⟨dSet (dSet (dSet (dSet product "id" (.vInt newId)) "id"
        (.vStr (toString newId))) "int_id" (.vInt newId)) pkField (.vStr pkValue),
      dSet product "id" (.vInt newId), ?_, hgid, ?_, ?_⟩
    · simp only [cosmos_add, hcode, htc]
    · rw [dGet_dSet_ne _ "int_id" pkField _ hpk2, dGet_dSet_self]
    · intro hemp
      rw [hnew]
      simp [cosmosIntIds, hemp, specNextIdOf, intListMax]

-- ### Round trip of the Cosmos model translation

theorem dKeys_append (d e : Doc) : dKeys (d ++ e) = dKeys d ++ dKeys e := by
  simp [dKeys]

theorem dSet_append_of_not_mem (d : Doc) (k : String) (v : Value)
    (h : k ∉ dKeys d) : dSet d k v = d ++ [(k, v)] := by
  induction d with
  | nil => simp [dSet]
  | cons kv kvs ih =>
    obtain ⟨k1, v1⟩ := kv
    rw [dKeys_cons] at h
    have h1 : k1 ≠ k := fun hk => h (List.mem_cons.mpr (Or.inl hk.symm))
    have h2 : k ∉ dKeys kvs := fun hk => h (List.mem_cons.mpr (Or.inr hk))
    simp [dSet, h1, ih h2]

theorem fst_mem_dKeys (d : Doc) (kv : String × Value) (h : kv ∈ d) :
    kv.1 ∈ dKeys d := List.mem_map_of_mem Prod.fst h

/-- Core of claims C2 and C3 (partitioned backend): translating an
application-model product to the storage model and back reproduces it
exactly. -/
theorem fromCosmos_toCosmos (pkField pkValue : String) (product : Doc) (n : Int)
    (hid : dGet product "id" = some (.vInt n))
    (hkeys : ∀ k ∈ dKeys product,
      strStartsWith k "_" = false ∧ k ≠ "int_id" ∧ k ≠ pkField)
    (hpku : strStartsWith pkField "_" = false) (hpk2 : pkField ≠ "int_id") :
    ∃ stored, toCosmos pkField pkValue product = some stored
      ∧ fromCosmos pkField stored = product := by
  have hmemid : "id" ∈ dKeys product := mem_keys_of_dGet product "id" _ hid
  set p1 := dSet product "id" (.vStr (toString n)) with hp1
  have hkeys1 : dKeys p1 = dKeys product := dKeys_dSet_of_mem product "id" _ hmemid
  have hni : "int_id" ∉ dKeys p1 := by
    rw [hkeys1]
    intro hmem
    exact (hkeys _ hmem).2.1 rfl
  have hnp : pkField ∉ dKeys p1 := by
    rw [hkeys1]
    intro hmem
    exact (hkeys _ hmem).2.2 rfl
  have hstored : toCosmos pkField pkValue product =
      some (p1 ++ [("int_id", Value.vInt n), (pkField, Value.vStr pkValue)]) := by
    rw [toCosmos_of_intId pkField pkValue product n hid, ← hp1,
      dSet_append_of_not_mem p1 "int_id" _ hni,
      dSet_append_of_not_mem _ pkField _ (by
        intro hmem
        rcases List.mem_append.mp (by rw [← dKeys_append]; exact hmem) with hmem | hmem
        · exact hnp hmem
        · simp [dKeys] at hmem
          exact hpk2 hmem)]
    simp
  refine ⟨_, hstored, ?_⟩
  have hfilter : (p1 ++ [("int_id", Value.vInt n), (pkField, Value.vStr pkValue)]).filter
      (fun kv => !(strStartsWith kv.1 "_")) =
      p1 ++ [("int_id", Value.vInt n), (pkField, Value.vStr pkValue)] := by
    rw [List.filter_eq_self]
    intro kv hkv
    rcases List.mem_append.mp hkv with hkv | hkv
    · have := (hkeys _ (by rw [← hkeys1]; exact fst_mem_dKeys _ _ hkv)).1
      simp [this]
    · simp at hkv
      rcases hkv with hkv | hkv
      · rw [hkv]
        rfl
      · rw [hkv]
        simp [hpku]
  have hgetint : dGet (p1 ++ [("int_id", Value.vInt n), (pkField, Value.vStr pkValue)])
      "int_id" = some (.vInt n) := by
    rw [dGet_append_right _ _ _ (dGet_none_of_not_mem p1 _ hni)]
    simp [dGet]
  have hsetid : dSet (p1 ++ [("int_id", Value.vInt n), (pkField, Value.vStr pkValue)])
      "id" (.vInt n) = product ++ [("int_id", Value.vInt n), (pkField, Value.vStr pkValue)] := by
    rw [dSet_append_of_mem _ _ _ _ (by rw [hkeys1]; exact hmemid), hp1, dSet_dSet,
      dSet_eq_of_dGet product "id" _ hid]
  have heraseint : dErase (product ++ [("int_id", Value.vInt n), (pkField, Value.vStr pkValue)])
      "int_id" = product ++ [(pkField, Value.vStr pkValue)] := by
    rw [dErase_append, dErase_of_not_mem product _ (by
      intro hmem
      exact (hkeys _ hmem).2.1 rfl)]
    simp [dErase, List.filter, hpk2, Ne.symm hpk2]
  have hhas : dHasKey (product ++ [(pkField, Value.vStr pkValue)]) pkField = true := by
    rw [dHasKey, dGet_append_right _ _ _ (dGet_none_of_not_mem product _ (by
      intro hmem
      exact (hkeys _ hmem).2.2 rfl))]
    simp [dGet]
  have herasepk : dErase (product ++ [(pkField, Value.vStr pkValue)]) pkField = product := by
    rw [dErase_append, dErase_of_not_mem product _ (by
      intro hmem
      exact (hkeys _ hmem).2.2 rfl)]
    simp [dErase, List.filter]
  simp only [fromCosmos, hfilter, hgetint, hsetid, heraseint, hhas, if_true, herasepk]

/-- C2: for every application-model product (integer id, no underscore,
shadow, or partition keys), the partitioned backend translation to storage
followed by the translation from storage reproduces the product exactly. -/
theorem C2_to_from_cosmos_roundtrip (pkField pkValue : String) (product : Doc) (n : Int)
    (hid : dGet product "id" = some (.vInt n))
    (hkeys : ∀ k ∈ dKeys product,
      strStartsWith k "_" = false ∧ k ≠ "int_id" ∧ k ≠ pkField)
    (hpku : strStartsWith pkField "_" = false) (hpk2 : pkField ≠ "int_id") :
    ∃ stored, toCosmos pkField pkValue product = some stored
      ∧ fromCosmos pkField stored = product :=
  fromCosmos_toCosmos pkField pkValue product n hid hkeys hpku hpk2

/-- Witness for C2 at a concrete product. -/
theorem C2_witness :
    ∃ stored, toCosmos "storeId" "default" [("id", Value.vInt 7), ("name", Value.vStr "tv")]
        = some stored
      ∧ fromCosmos "storeId" stored = [("id", Value.vInt 7), ("name", Value.vStr "tv")] :=
  C2_to_from_cosmos_roundtrip "storeId" "default"
    [("id", Value.vInt 7), ("name", Value.vStr "tv")] 7 (by rfl) (by decide)
    (by decide) (by decide)

/-- Witness for C1 at concrete stores. -/
theorem C1_witness :
    allIntIds [[("id", Value.vInt 3)]]
    ∧ (∃ stored, mongo_add ⟨[[("id", Value.vInt 3)]], 0⟩ [("id", Value.vInt 99)] =
          some (⟨[[("id", Value.vInt 3)]] ++ [stored], 0 + 1⟩, dErase stored "_id")
        ∧ dGet stored "id" = some (.vInt (specNextIdOf (intIdsOf [[("id", Value.vInt 3)]])))
        ∧ dGet (dErase stored "_id") "id" =
            some (.vInt (specNextIdOf (intIdsOf [[("id", Value.vInt 3)]])))
        ∧ ([[("id", Value.vInt 3)]] = ([] : List Doc) →
            specNextIdOf (intIdsOf [[("id", Value.vInt 3)]]) = 1))
    ∧ (∃ stored ret, cosmos_add "storeId" "bestbuy" [] [("name", Value.vStr "tv")] =
          some ([] ++ [stored], ret)
        ∧ dGet ret "id" = some (.vInt (specNextIdOf (cosmosIntIds "storeId" "bestbuy" [])))
        ∧ dGet stored "int_id" = some (.vInt (specNextIdOf (cosmosIntIds "storeId" "bestbuy" [])))
        ∧ (([] : List Doc).filter (inPartition "storeId" "bestbuy") = [] →
            specNextIdOf (cosmosIntIds "storeId" "bestbuy" []) = 1)) := by
  have hints : allIntIds [[("id", Value.vInt 3)]] := by
    intro d hd
    simp at hd
    exact ⟨3, by rw [hd]; rfl⟩
  exact ⟨hints,
    C1_add_assigns_next_id.1 ⟨[[("id", Value.vInt 3)]], 0⟩ [("id", Value.vInt 99)] hints,
    C1_add_assigns_next_id.2 "storeId" "bestbuy" [] [("name", Value.vStr "tv")]
      (by decide) (by decide)⟩

-- ### C10: falsy body check of POST /

/-- C10: POST / with the empty JSON object, exactly like POST / with no
body, is rejected with 400 and the text Invalid input before the
repository add is consulted, on any backend. -/
theorem C10_empty_object_rejected {σ : Type} (addImpl : σ → Doc → Option (σ × Doc)) (s : σ) :
    add_product addImpl s (some []) = some (s, .err 400 "Invalid input")
    ∧ add_product addImpl s none = some (s, .err 400 "Invalid input") :=
  ⟨rfl, rfl⟩

-- ### C4: update on a missing id

theorem mongoUpdateDocs_none (docs : List Doc) (tid : Value) (product : Doc)
    (h : ∀ d ∈ docs, mongoIdMatch d tid = false) :
    mongoUpdateDocs docs tid product = none := by
  induction docs with
  | nil => rfl
  | cons d ds ih =>
    simp [mongoUpdateDocs, h d (List.mem_cons_self d ds),
      ih (fun e he => h e (List.mem_cons_of_mem _ he))]

/-- C4: on either backend, update with an id matching no document in the
scope returns absent and leaves the store exactly as it was (no insert,
count unchanged). -/
theorem C4_update_missing_id_noop :
    (∀ (s : MongoState) (product : Doc) (tid : Value),
      dGet product "id" = some tid →
      (∀ d ∈ s.docs, mongoIdMatch d tid = false) →
      mongo_update s product = some (s, none))
  ∧ (∀ (pkField pkValue : String) (c : List Doc) (product : Doc) (pidv : Value),
      dGet product "id" = some pidv →
      cosmosReadItem pkField pkValue c (pyStr pidv) = none →
      cosmos_update pkField pkValue c product = some (c, none)) := by
  constructor
  · intro s product tid hid hno
    have hupd := mongoUpdateDocs_none s.docs tid product hno
    simp only [mongo_update, hid, Option.bind_eq_bind, Option.some_bind, hupd]
  · intro pkField pkValue c product pidv hid hread
    simp only [cosmos_update, hid, Option.bind_eq_bind, Option.some_bind,
      cosmos_get_one, hread, Option.map_none']

/-- Witness for C4 at a concrete store. -/
theorem C4_witness :
    dGet [("id", Value.vInt 2)] "id" = some (Value.vInt 2)
    ∧ (∀ d ∈ [[("id", Value.vInt 1)]], mongoIdMatch d (Value.vInt 2) = false)
    ∧ mongo_update ⟨[[("id", Value.vInt 1)]], 0⟩ [("id", Value.vInt 2)] =
        some (⟨[[("id", Value.vInt 1)]], 0⟩, none)
    ∧ cosmosReadItem "storeId" "default" [] (pyStr (Value.vInt 2)) = none
    ∧ cosmos_update "storeId" "default" [] [("id", Value.vInt 2)] = some ([], none) := by
  refine ⟨rfl, by decide, ?_, rfl, ?_⟩
  · exact C4_update_missing_id_noop.1 ⟨[[("id", Value.vInt 1)]], 0⟩
      [("id", Value.vInt 2)] (Value.vInt 2) rfl (by decide)
  · exact C4_update_missing_id_noop.2 "storeId" "default" [] [("id", Value.vInt 2)]
      (Value.vInt 2) rfl rfl

-- ### C5: delete semantics

theorem removeFirst_eq_none_iff (p : Doc → Bool) (docs : List Doc) :
    removeFirst p docs = none ↔ ∀ d ∈ docs, p d = false := by
  induction docs with
  | nil => simp [removeFirst]
  | cons d ds ih =>
    by_cases hp : p d
    · simp [removeFirst, hp]
    · simp [removeFirst, hp, ih]

theorem removeFirst_find?_none (p : Doc → Bool) (docs docs' : List Doc)
    (hU : (docs.filter p).length ≤ 1)
    (h : removeFirst p docs = some docs') :
    docs'.find? p = none := by
  induction docs generalizing docs' with
  | nil => simp [removeFirst] at h
  | cons d ds ih =>
    by_cases hp : p d
    · simp [removeFirst, hp] at h
      subst h
      rw [List.filter_cons_of_pos hp] at hU
      simp at hU
      rw [List.find?_eq_none]
      intro a ha
      simp [hU a ha]
    · have hpf : p d = false := by simpa using hp
      simp only [removeFirst, hpf, Bool.false_eq_true, if_false] at h
      cases hrec : removeFirst p ds with
      | none => rw [hrec] at h; simp at h
      | some ds' =>
        rw [hrec] at h
        simp at h
        subst h
        rw [List.find?_cons_of_neg _ (by simp [hpf])]
        exact ih ds' (by rwa [List.filter_cons_of_neg (by simp [hpf])] at hU) hrec

/-- C5: on either backend, delete returns true exactly when a matching
document existed, get_one after the call is absent (ids being unique in
the scope), and an unsuccessful delete leaves the store untouched. -/
theorem C5_delete_semantics :
    (∀ (s : MongoState) (pid : Value),
      (s.docs.filter (fun d => mongoIdMatch d pid)).length ≤ 1 →
      ((mongo_delete s pid).2 = true ↔ ∃ d ∈ s.docs, mongoIdMatch d pid = true)
      ∧ mongo_get_one (mongo_delete s pid).1 pid = none
      ∧ ((mongo_delete s pid).2 = false → (mongo_delete s pid).1 = s))
  ∧ (∀ (pkField pkValue : String) (c : List Doc) (pid : Value),
      (c.filter (fun d => decide (dGet d "id" = some (.vStr (pyStr pid)))
        && inPartition pkField pkValue d)).length ≤ 1 →
      ((cosmos_delete pkField pkValue c pid).2 = true ↔
        ∃ d ∈ c, (decide (dGet d "id" = some (.vStr (pyStr pid)))
          && inPartition pkField pkValue d) = true)
      ∧ cosmos_get_one pkField pkValue (cosmos_delete pkField pkValue c pid).1 pid = none
      ∧ ((cosmos_delete pkField pkValue c pid).2 = false →
          (cosmos_delete pkField pkValue c pid).1 = c)) := by
  constructor
  · intro s pid hU
    cases hrem : removeFirst (fun d => mongoIdMatch d pid) s.docs with
    | none =>
      have hall := (removeFirst_eq_none_iff _ _).mp hrem
      refine ⟨?_, ?_, ?_⟩
      · simp only [mongo_delete, hrem]
        constructor
        · intro hfalse; simp at hfalse
        · rintro ⟨d, hd, hmatch⟩
          rw [hall d hd] at hmatch
          simp at hmatch
      · simp only [mongo_delete, hrem, mongo_get_one]
        rw [List.find?_eq_none.mpr (fun a ha => by simp [hall a ha])]
        rfl
      · intro _
        simp [mongo_delete, hrem]
    | some docs' =>
      refine ⟨?_, ?_, ?_⟩
      · simp only [mongo_delete, hrem]
        constructor
        · intro _
          by_contra hne
          push_neg at hne
          have : removeFirst (fun d => mongoIdMatch d pid) s.docs = none :=
            (removeFirst_eq_none_iff _ _).mpr (fun d hd => by
              cases hm : mongoIdMatch d pid
              · rfl
              · exact absurd hm (hne d hd))
          rw [this] at hrem
          exact Option.noConfusion hrem
        · intro _; trivial
      · simp only [mongo_delete, hrem, mongo_get_one]
        rw [removeFirst_find?_none _ _ _ hU hrem]
        rfl
      · intro hfalse
        simp [mongo_delete, hrem] at hfalse
  · intro pkField pkValue c pid hU
    cases hrem : removeFirst (fun d => decide (dGet d "id" = some (.vStr (pyStr pid)))
        && inPartition pkField pkValue d) c with
    | none =>
      have hall := (removeFirst_eq_none_iff _ _).mp hrem
      refine ⟨?_, ?_, ?_⟩
      · simp only [cosmos_delete, hrem]
        constructor
        · intro hfalse; simp at hfalse
        · rintro ⟨d, hd, hmatch⟩
          rw [hall d hd] at hmatch
          simp at hmatch
      · simp only [cosmos_delete, hrem, cosmos_get_one, cosmosReadItem]
        rw [List.find?_eq_none.mpr (fun a ha => by simp [hall a ha])]
        rfl
      · intro _
        simp [cosmos_delete, hrem]
    | some c' =>
      refine ⟨?_, ?_, ?_⟩
      · simp only [cosmos_delete, hrem]
        constructor
        · intro _
          by_contra hne
          push_neg at hne
          have : removeFirst (fun d => decide (dGet d "id" = some (.vStr (pyStr pid)))
              && inPartition pkField pkValue d) c = none :=
            (removeFirst_eq_none_iff _ _).mpr (fun d hd => by
              cases hm : (decide (dGet d "id" = some (.vStr (pyStr pid)))
                  && inPartition pkField pkValue d)
              · rfl
              · exact absurd hm (hne d hd))
          rw [this] at hrem
          exact Option.noConfusion hrem
        · intro _; trivial
      · simp only [cosmos_delete, hrem, cosmos_get_one, cosmosReadItem]
        rw [removeFirst_find?_none _ _ _ hU hrem]
        rfl
      · intro hfalse
        simp [cosmos_delete, hrem] at hfalse

/-- Witness for C5 at concrete stores. -/
theorem C5_witness :
    (([[("id", Value.vInt 1)]] : List Doc).filter
      (fun d => mongoIdMatch d (Value.vInt 1))).length ≤ 1
    ∧ ((mongo_delete ⟨[[("id", Value.vInt 1)]], 0⟩ (Value.vInt 1)).2 = true ↔
        ∃ d ∈ [[("id", Value.vInt 1)]], mongoIdMatch d (Value.vInt 1) = true)
    ∧ mongo_get_one (mongo_delete ⟨[[("id", Value.vInt 1)]], 0⟩ (Value.vInt 1)).1
        (Value.vInt 1) = none
    ∧ ((mongo_delete ⟨[[("id", Value.vInt 1)]], 0⟩ (Value.vInt 1)).2 = false →
        (mongo_delete ⟨[[("id", Value.vInt 1)]], 0⟩ (Value.vInt 1)).1 =
          ⟨[[("id", Value.vInt 1)]], 0⟩)
    ∧ (([] : List Doc).filter (fun d => decide (dGet d "id" = some (.vStr (pyStr (Value.vInt 9))))
        && inPartition "storeId" "default" d)).length ≤ 1
    ∧ ((cosmos_delete "storeId" "default" [] (Value.vInt 9)).2 = true ↔
        ∃ d ∈ ([] : List Doc), (decide (dGet d "id" = some (.vStr (pyStr (Value.vInt 9))))
          && inPartition "storeId" "default" d) = true)
    ∧ cosmos_get_one "storeId" "default"
        (cosmos_delete "storeId" "default" [] (Value.vInt 9)).1 (Value.vInt 9) = none
    ∧ ((cosmos_delete "storeId" "default" [] (Value.vInt 9)).2 = false →
        (cosmos_delete "storeId" "default" [] (Value.vInt 9)).1 = []) := by
  obtain ⟨h1, h2, h3⟩ := C5_delete_semantics.1 ⟨[[("id", Value.vInt 1)]], 0⟩
    (Value.vInt 1) (by decide)
  obtain ⟨h4, h5, h6⟩ := C5_delete_semantics.2 "storeId" "default" [] (Value.vInt 9)
    (by decide)
  exact ⟨by decide, h1, h2, h3, by decide, h4, h5, h6⟩

-- ### C6: partition isolation

theorem inPartition_other (pkField v1 v2 : String) (d : Doc) (hne : v1 ≠ v2)
    (h : inPartition pkField v1 d = true) : inPartition pkField v2 d = false := by
  simp only [inPartition, decide_eq_true_eq] at h
  simp only [inPartition, h, decide_eq_false_iff_not]
  intro he
  exact hne (by injection he with he'; injection he')

theorem find?_filter_of_imp {α : Type} (p q : α → Bool) (l : List α)
    (h : ∀ a, p a = true → q a = true) :
    (l.filter q).find? p = l.find? p := by
  induction l with
  | nil => rfl
  | cons a as ih =>
    by_cases hq : q a = true
    · by_cases hp : p a = true
      · rw [List.filter_cons_of_pos hq, List.find?_cons_of_pos _ hp,
          List.find?_cons_of_pos _ hp]
      · rw [List.filter_cons_of_pos hq, List.find?_cons_of_neg _ hp,
          List.find?_cons_of_neg _ hp, ih]
    · have hp : p a = false := by
        cases hpa : p a
        · rfl
        · exact absurd (h a hpa) hq
      rw [List.filter_cons_of_neg hq, List.find?_cons_of_neg _ (by simp [hp]), ih]

/-- C6: for distinct partition values, a document of one partition is never
read, listed, or counted by operations scoped to the other: every scoped
operation is unchanged when all documents of the other partition are
removed from the container, and a scoped point read never returns such a
document. -/
theorem C6_partition_isolation (pkField v1 v2 : String) (c : List Doc)
    (hne : v1 ≠ v2) :
    (∀ d ∈ c, inPartition pkField v1 d = true →
      ∀ pid : Value, cosmosReadItem pkField v2 c (pyStr pid) ≠ some d)
    ∧ cosmos_get_all pkField v2 c =
        cosmos_get_all pkField v2 (c.filter (fun d => !(inPartition pkField v1 d)))
    ∧ (∀ pid : Value, cosmos_get_one pkField v2 c pid =
        cosmos_get_one pkField v2 (c.filter (fun d => !(inPartition pkField v1 d))) pid)
    ∧ cosmos_count pkField v2 c =
        cosmos_count pkField v2 (c.filter (fun d => !(inPartition pkField v1 d))) := by
  have hfilter : c.filter (inPartition pkField v2) =
      (c.filter (fun d => !(inPartition pkField v1 d))).filter (inPartition pkField v2) := by
    rw [List.filter_filter]
    apply List.filter_congr
    intro d _
    cases h2 : inPartition pkField v2 d
    · simp
    · simp [inPartition_other pkField v2 v1 d (Ne.symm hne) h2]
  refine ⟨?_, ?_, ?_, ?_⟩
  · intro d hd h1 pid hread
    have := List.find?_some hread
    simp only [Bool.and_eq_true] at this
    rw [inPartition_other pkField v1 v2 d hne h1] at this
    exact Bool.noConfusion this.2
  · unfold cosmos_get_all
    rw [hfilter]
  · intro pid
    unfold cosmos_get_one cosmosReadItem
    rw [find?_filter_of_imp _ _ c (fun a ha => by
      simp only [Bool.and_eq_true] at ha
      cases h1 : inPartition pkField v1 a
      · simp
      · rw [inPartition_other pkField v1 v2 a hne h1] at ha
        exact absurd ha.2 (by simp))]
  · unfold cosmos_count
    rw [hfilter]

/-- Witness for C6 at a concrete container holding one document per
partition. -/
theorem C6_witness :
    ("bestbuy" : String) ≠ "contoso"
    ∧ ((∀ d ∈ [[("id", Value.vStr "1"), ("storeId", Value.vStr "bestbuy")],
          [("id", Value.vStr "1"), ("storeId", Value.vStr "contoso")]],
        inPartition "storeId" "bestbuy" d = true →
        ∀ pid : Value, cosmosReadItem "storeId" "contoso"
          [[("id", Value.vStr "1"), ("storeId", Value.vStr "bestbuy")],
           [("id", Value.vStr "1"), ("storeId", Value.vStr "contoso")]] (pyStr pid) ≠ some d)
      ∧ cosmos_get_all "storeId" "contoso"
          [[("id", Value.vStr "1"), ("storeId", Value.vStr "bestbuy")],
           [("id", Value.vStr "1"), ("storeId", Value.vStr "contoso")]] =
          cosmos_get_all "storeId" "contoso"
            ([[("id", Value.vStr "1"), ("storeId", Value.vStr "bestbuy")],
              [("id", Value.vStr "1"), ("storeId", Value.vStr "contoso")]].filter
              (fun d => !(inPartition "storeId" "bestbuy" d)))
      ∧ (∀ pid : Value, cosmos_get_one "storeId" "contoso"
            [[("id", Value.vStr "1"), ("storeId", Value.vStr "bestbuy")],
             [("id", Value.vStr "1"), ("storeId", Value.vStr "contoso")]] pid =
          cosmos_get_one "storeId" "contoso"
            ([[("id", Value.vStr "1"), ("storeId", Value.vStr "bestbuy")],
              [("id", Value.vStr "1"), ("storeId", Value.vStr "contoso")]].filter
              (fun d => !(inPartition "storeId" "bestbuy" d))) pid)
      ∧ cosmos_count "storeId" "contoso"
          [[("id", Value.vStr "1"), ("storeId", Value.vStr "bestbuy")],
           [("id", Value.vStr "1"), ("storeId", Value.vStr "contoso")]] =
          cosmos_count "storeId" "contoso"
            ([[("id", Value.vStr "1"), ("storeId", Value.vStr "bestbuy")],
              [("id", Value.vStr "1"), ("storeId", Value.vStr "contoso")]].filter
              (fun d => !(inPartition "storeId" "bestbuy" d)))) :=
  ⟨by decide, C6_partition_isolation "storeId" "bestbuy" "contoso"
    [[("id", Value.vStr "1"), ("storeId", Value.vStr "bestbuy")],
     [("id", Value.vStr "1"), ("storeId", Value.vStr "contoso")]] (by decide)⟩

-- ### C3: update as full replace vs field-wise merge

theorem dGet_applySet (product : Doc) (hWF : dWF product) :
    ∀ (old : Doc) (k : String),
      dGet (applySet old product) k =
        if dHasKey product k then dGet product k else dGet old k := by
  induction product with
  | nil =>
    intro old k
    simp [applySet, dHasKey, dGet]
  | cons kv rest ih =>
    obtain ⟨k0, v0⟩ := kv
    have hWFr : dWF rest := by
      have := hWF
      rw [dWF, dKeys_cons] at this
      exact (List.nodup_cons.mp this).2
    have hk0 : k0 ∉ dKeys rest := by
      have := hWF
      rw [dWF, dKeys_cons] at this
      exact (List.nodup_cons.mp this).1
    intro old k
    have hfold : applySet old ((k0, v0) :: rest) = applySet (dSet old k0 v0) rest := rfl
    rw [hfold, ih hWFr (dSet old k0 v0) k]
    by_cases hk : k = k0
    · subst hk
      rw [dHasKey, dGet_none_of_not_mem rest k hk0]
      simp [dHasKey, dGet, dGet_dSet_self]
    · have hk' : k0 ≠ k := Ne.symm hk
      have h1 : dHasKey ((k0, v0) :: rest) k = dHasKey rest k := by
        simp [dHasKey, dGet, hk']
      have h2 : dGet ((k0, v0) :: rest) k = dGet rest k := by
        simp [dGet, hk']
      rw [h1, h2, dGet_dSet_ne old k k0 v0 hk']

theorem mongoUpdateDocs_found (tid : Value) (product : Doc) :
    ∀ (pre : List Doc) (old : Doc) (post : List Doc),
      (∀ d ∈ pre, mongoIdMatch d tid = false) →
      mongoIdMatch old tid = true →
      mongoUpdateDocs (pre ++ old :: post) tid product =
        some (pre ++ applySet old product :: post) := by
  intro pre
  induction pre with
  | nil =>
    intro old post _ hold
    simp [mongoUpdateDocs, hold]
  | cons d ds ih =>
    intro old post hpre hold
    have hd : mongoIdMatch d tid = false := hpre d (List.mem_cons_self d ds)
    show mongoUpdateDocs (d :: (ds ++ old :: post)) tid product = _
    simp only [mongoUpdateDocs, hd, Bool.false_eq_true, if_false]
    rw [ih old post (fun e he => hpre e (List.mem_cons_of_mem _ he)) hold]
    rfl

theorem find?_append_none {α : Type} (p : α → Bool) (l1 l2 : List α)
    (h : ∀ a ∈ l1, p a = false) :
    (l1 ++ l2).find? p = l2.find? p := by
  induction l1 with
  | nil => rfl
  | cons a as ih =>
    rw [List.cons_append, List.find?_cons_of_neg _ (by
      simp [h a (List.mem_cons_self a as)]), ih (fun e he => h e (List.mem_cons_of_mem _ he))]

theorem cosmosUpsert_read (pkField pkValue item : String) (p : Doc)
    (hpid : dGet p "id" = some (.vStr item))
    (hppk : dGet p pkField = some (.vStr pkValue)) :
    ∀ c : List Doc,
      cosmosReadItem pkField pkValue (cosmosUpsert pkField pkValue c p) item = some p := by
  have hp : (fun d => decide (dGet d "id" = some (Value.vStr item))
      && inPartition pkField pkValue d) p = true := by
    simp only [hpid, inPartition, hppk, decide_eq_true_eq]
    simp
  intro c
  induction c with
  | nil =>
    simp only [cosmosUpsert, cosmosReadItem]
    rw [List.find?_cons_of_pos (p := fun d => decide (dGet d "id" = some (Value.vStr item))
      && inPartition pkField pkValue d) _ hp]
  | cons d ds ih =>
    by_cases hd : (decide (dGet d "id" = dGet p "id") && inPartition pkField pkValue d) = true
    · simp only [cosmosUpsert, hd, if_true, cosmosReadItem]
      rw [List.find?_cons_of_pos (p := fun d => decide (dGet d "id" = some (Value.vStr item))
        && inPartition pkField pkValue d) _ hp]
    · have hdf : (decide (dGet d "id" = dGet p "id")
          && inPartition pkField pkValue d) = false := by simpa using hd
      have hstep : cosmosUpsert pkField pkValue (d :: ds) p =
          d :: cosmosUpsert pkField pkValue ds p := by
        simp [cosmosUpsert, hdf]
      rw [hstep, cosmosReadItem, List.find?_cons_of_neg _ (fun hcon => by
        simp only [Bool.and_eq_true, decide_eq_true_eq] at hcon
        apply hd
        simp only [Bool.and_eq_true, decide_eq_true_eq]
        exact ⟨by rw [hcon.1, hpid], hcon.2⟩)]
      exact ih

/-- C3 as the code has it: on the partitioned backend update is a genuine
full-document replace (a get_one after the update returns exactly the
submitted product), while on the Mongo backend update is a field-wise
merge: every submitted field overwrites the stored one, and every field of
the previous document that the submission does not mention survives (and
is returned to the caller by the re-read). -/
theorem C3_update_replace_vs_merge :
    (∀ (s : MongoState) (product : Doc) (tid : Value) (pre : List Doc) (old : Doc)
        (post : List Doc),
      dGet product "id" = some tid →
      dWF product →
      s.docs = pre ++ old :: post →
      (∀ d ∈ pre, mongoIdMatch d tid = false) →
      mongoIdMatch old tid = true →
      mongo_update s product =
        some (⟨pre ++ applySet old product :: post, s.nextOid⟩,
          some (dErase (applySet old product) "_id"))
      ∧ (∀ k, k ≠ "_id" →
          dGet (dErase (applySet old product) "_id") k =
            if dHasKey product k then dGet product k else dGet old k))
  ∧ (∀ (pkField pkValue : String) (c : List Doc) (product : Doc) (n : Int),
      dGet product "id" = some (.vInt n) →
      (∀ k ∈ dKeys product,
        strStartsWith k "_" = false ∧ k ≠ "int_id" ∧ k ≠ pkField) →
      strStartsWith pkField "_" = false → pkField ≠ "int_id" →
      (∃ g, cosmos_get_one pkField pkValue c (.vInt n) = some g ∧ g ≠ []) →
      ∃ c', cosmos_update pkField pkValue c product = some (c', some product)
        ∧ cosmos_get_one pkField pkValue c' (.vInt n) = some product) := by
  constructor
  · rintro ⟨docs, noid⟩ product tid pre old post hid hWF hdocs hpre hold
    obtain rfl : docs = pre ++ old :: post := hdocs
    have hupd := mongoUpdateDocs_found tid product pre old post hpre hold
    have hmerged : ∀ k, k ≠ "_id" →
        dGet (dErase (applySet old product) "_id") k =
          if dHasKey product k then dGet product k else dGet old k := by
      intro k hk
      rw [dGet_dErase_ne _ k "_id" (Ne.symm hk), dGet_applySet product hWF old k]
    have hgetid : dGet (applySet old product) "id" = some tid := by
      rw [dGet_applySet product hWF old "id", dHasKey_of_dGet product "id" tid hid]
      simp [hid]
    have hmatch : (fun d => mongoIdMatch d tid) (applySet old product) = true := by
      simp only [mongoIdMatch, hgetid]
      exact bsonEq_refl tid
    refine ⟨?_, hmerged⟩
    simp only [mongo_update, hid, Option.bind_eq_bind, Option.some_bind, hupd]
    have hget : mongo_get_one ⟨pre ++ applySet old product :: post, noid⟩ tid =
        some (dErase (applySet old product) "_id") := by
      show ((pre ++ applySet old product :: post).find? (fun d => mongoIdMatch d tid)).map
        (fun d => dErase d "_id") = _
      rw [find?_append_none _ pre _ (fun e he => hpre e he),
        List.find?_cons_of_pos (p := fun d => mongoIdMatch d tid) _ hmatch]
      rfl
    rw [hget]
  · intro pkField pkValue c product n hid hkeys hpku hpk2 hexists
    obtain ⟨g, hg, hgne⟩ := hexists
    have hpk1 : pkField ≠ "id" := by
      intro he
      exact ((hkeys "id" (mem_keys_of_dGet product "id" _ hid)).2.2) he.symm
    obtain ⟨stored, hstored, hback⟩ :=
      fromCosmos_toCosmos pkField pkValue product n hid hkeys hpku hpk2
    have hstored' : stored = dSet (dSet (dSet product "id" (.vStr (toString n)))
        "int_id" (.vInt n)) pkField (.vStr pkValue) := by
      rw [toCosmos_of_intId pkField pkValue product n hid] at hstored
      injection hstored with h0
      exact h0.symm
    have hsid : dGet stored "id" = some (.vStr (toString n)) := by
      rw [hstored', dGet_dSet_ne _ "id" pkField _ hpk1,
        dGet_dSet_ne _ "id" "int_id" _ (by decide), dGet_dSet_self]
    have hspk : dGet stored pkField = some (.vStr pkValue) := by
      rw [hstored', dGet_dSet_self]
    have hitem : pyStr (Value.vInt n) = toString n := rfl
    refine ⟨cosmosUpsert pkField pkValue c stored, ?_, ?_⟩
    · simp only [cosmos_update, hid, Option.bind_eq_bind, Option.some_bind, hg]
      rw [if_neg (by
        intro hemp
        exact hgne (List.isEmpty_iff.mp hemp))]
      simp only [hstored, Option.some_bind]
    · rw [cosmos_get_one, hitem,
        cosmosUpsert_read pkField pkValue (toString n) stored hsid hspk c]
      simp [hback]

/-- Counterexample to C3 as stated: on the Mongo backend the field "color"
of the stored document survives an update that does not mention it — the
update is a merge, not a full-document replace. -/
theorem C3_counterexample :
    mongo_update ⟨[[("id", Value.vInt 1), ("name", Value.vStr "a"),
        ("color", Value.vStr "red"), ("_id", Value.vStr "x")]], 7⟩
      [("id", Value.vInt 1), ("name", Value.vStr "b")] =
    some (⟨[[("id", Value.vInt 1), ("name", Value.vStr "b"),
        ("color", Value.vStr "red"), ("_id", Value.vStr "x")]], 7⟩,
      some [("id", Value.vInt 1), ("name", Value.vStr "b"), ("color", Value.vStr "red")])
    ∧ dGet [("id", Value.vInt 1), ("name", Value.vStr "b"), ("color", Value.vStr "red")]
        "color" = some (Value.vStr "red") := by
  constructor <;> rfl

/-- Witness for the amended C3 at concrete stores. -/
theorem C3_witness :
    (mongo_update ⟨[[("id", Value.vInt 1), ("color", Value.vStr "red")]], 0⟩
        [("id", Value.vInt 1), ("name", Value.vStr "b")] =
      some (⟨[applySet [("id", Value.vInt 1), ("color", Value.vStr "red")]
          [("id", Value.vInt 1), ("name", Value.vStr "b")]] , 0⟩,
        some (dErase (applySet [("id", Value.vInt 1), ("color", Value.vStr "red")]
          [("id", Value.vInt 1), ("name", Value.vStr "b")]) "_id"))
      ∧ (∀ k, k ≠ "_id" →
          dGet (dErase (applySet [("id", Value.vInt 1), ("color", Value.vStr "red")]
            [("id", Value.vInt 1), ("name", Value.vStr "b")]) "_id") k =
            if dHasKey [("id", Value.vInt 1), ("name", Value.vStr "b")] k
            then dGet [("id", Value.vInt 1), ("name", Value.vStr "b")] k
            else dGet [("id", Value.vInt 1), ("color", Value.vStr "red")] k))
    ∧ (∃ c', cosmos_update "storeId" "default"
          [[("id", Value.vStr "1"), ("name", Value.vStr "a"),
            ("int_id", Value.vInt 1), ("storeId", Value.vStr "default")]]
          [("id", Value.vInt 1), ("name", Value.vStr "b")] = some (c',
            some [("id", Value.vInt 1), ("name", Value.vStr "b")])
        ∧ cosmos_get_one "storeId" "default" c' (Value.vInt 1) =
            some [("id", Value.vInt 1), ("name", Value.vStr "b")]) := by
  constructor
  · have h := C3_update_replace_vs_merge.1
      ⟨[[("id", Value.vInt 1), ("color", Value.vStr "red")]], 0⟩
      [("id", Value.vInt 1), ("name", Value.vStr "b")] (Value.vInt 1)
      [] [("id", Value.vInt 1), ("color", Value.vStr "red")] []
      rfl (by decide) rfl (by decide) (by decide)
    simpa using h
  · exact C3_update_replace_vs_merge.2 "storeId" "default"
      [[("id", Value.vStr "1"), ("name", Value.vStr "a"),
        ("int_id", Value.vInt 1), ("storeId", Value.vStr "default")]]
      [("id", Value.vInt 1), ("name", Value.vStr "b")] 1
      rfl (by decide) (by decide) (by decide)
      ⟨[("id", Value.vInt 1), ("name", Value.vStr "a")], rfl, by decide⟩

-- ### C7: storage-internal fields in read results

theorem mem_dKeys_dSet (d : Doc) (k k' : String) (v : Value)
    (h : k ∈ dKeys (dSet d k' v)) : k ∈ dKeys d ∨ k = k' := by
  induction d with
  | nil =>
    simp [dSet, dKeys] at h
    exact Or.inr h
  | cons kv kvs ih =>
    obtain ⟨k1, v1⟩ := kv
    by_cases h1 : k1 = k'
    · rw [dSet, if_pos h1, dKeys_cons] at h
      rcases List.mem_cons.mp h with h | h
      · exact Or.inr h
      · exact Or.inl (by rw [dKeys_cons]; exact List.mem_cons_of_mem _ h)
    · rw [dSet, if_neg h1, dKeys_cons] at h
      rcases List.mem_cons.mp h with h | h
      · exact Or.inl (by rw [dKeys_cons]; exact List.mem_cons.mpr (Or.inl h))
      · rcases ih h with h | h
        · exact Or.inl (by rw [dKeys_cons]; exact List.mem_cons_of_mem _ h)
        · exact Or.inr h

theorem mem_dKeys_dErase (d : Doc) (k k' : String)
    (h : k ∈ dKeys (dErase d k')) : k ∈ dKeys d ∧ k ≠ k' := by
  rw [dKeys, dErase] at h
  obtain ⟨kv, hkv, hfst⟩ := List.mem_map.mp h
  obtain ⟨hmem, hpred⟩ := List.mem_filter.mp hkv
  subst hfst
  refine ⟨fst_mem_dKeys d kv hmem, ?_⟩
  simpa using hpred

theorem mem_dKeys_filter_underscore (doc : Doc) (k : String)
    (h : k ∈ dKeys (doc.filter (fun kv => !(strStartsWith kv.1 "_")))) :
    strStartsWith k "_" = false := by
  rw [dKeys] at h
  obtain ⟨kv, hkv, hfst⟩ := List.mem_map.mp h
  obtain ⟨_, hpred⟩ := List.mem_filter.mp hkv
  subst hfst
  simpa using hpred

/-- Every key of a document returned by the Cosmos translation from storage
is clean: not underscore-prefixed, not the shadow key, not the partition
field. -/
theorem fromCosmos_keys (pkField : String) (doc : Doc) (k : String)
    (hk : k ∈ dKeys (fromCosmos pkField doc)) :
    strStartsWith k "_" = false ∧ k ≠ "int_id" ∧ k ≠ pkField := by
  rw [fromCosmos] at hk
  set d1 := doc.filter (fun kv => !(strStartsWith kv.1 "_")) with hd1
  have hstep2 : ∀ k', k' ∈ dKeys (match dGet d1 "int_id" with
      | some v => dErase (dSet d1 "id" v) "int_id"
      | none => d1) → strStartsWith k' "_" = false ∧ k' ≠ "int_id" := by
    intro k' hk'
    cases hq : dGet d1 "int_id" with
    | some v =>
      rw [hq] at hk'
      obtain ⟨hmem, hne⟩ := mem_dKeys_dErase _ k' "int_id" hk'
      rcases mem_dKeys_dSet d1 k' "id" v hmem with hmem | hmem
      · exact ⟨mem_dKeys_filter_underscore doc k' hmem, hne⟩
      · subst hmem
        exact ⟨by decide, hne⟩
    | none =>
      rw [hq] at hk'
      refine ⟨mem_dKeys_filter_underscore doc k' hk', ?_⟩
      intro he
      subst he
      have := dGet_isSome_of_mem_keys d1 _ hk'
      rw [hq] at this
      exact Bool.noConfusion this
  by_cases hpk : dHasKey (match dGet d1 "int_id" with
      | some v => dErase (dSet d1 "id" v) "int_id"
      | none => d1) pkField = true
  · rw [if_pos hpk] at hk
    obtain ⟨hmem, hne⟩ := mem_dKeys_dErase _ k pkField hk
    obtain ⟨h1, h2⟩ := hstep2 k hmem
    exact ⟨h1, h2, hne⟩
  · rw [if_neg hpk] at hk
    obtain ⟨h1, h2⟩ := hstep2 k hk
    refine ⟨h1, h2, ?_⟩
    intro he
    subst he
    exact hpk (by
      rw [dHasKey]
      rw [Option.isSome_iff_ne_none]
      intro hnone
      have := dGet_isSome_of_mem_keys _ _ hk
      rw [hnone] at this
      exact Bool.noConfusion this)

/-- C7 as the code has it: the Mongo backend strips exactly the native
storage key _id from every document returned by get_all or get_one (other
underscore-prefixed client fields are returned as stored); the partitioned
backend strips every underscore-prefixed field and also the shadow id and
partition fields. -/
theorem C7_returned_fields :
    (∀ (s : MongoState) (d : Doc), d ∈ mongo_get_all s → dGet d "_id" = none)
  ∧ (∀ (s : MongoState) (pid : Value) (d : Doc),
      mongo_get_one s pid = some d → dGet d "_id" = none)
  ∧ (∀ (pkField pkValue : String) (c : List Doc) (d : Doc),
      d ∈ cosmos_get_all pkField pkValue c →
      ∀ k ∈ dKeys d, strStartsWith k "_" = false ∧ k ≠ "int_id" ∧ k ≠ pkField)
  ∧ (∀ (pkField pkValue : String) (c : List Doc) (pid : Value) (d : Doc),
      cosmos_get_one pkField pkValue c pid = some d →
      ∀ k ∈ dKeys d, strStartsWith k "_" = false ∧ k ≠ "int_id" ∧ k ≠ pkField) := by
  refine ⟨?_, ?_, ?_, ?_⟩
  · intro s d hd
    obtain ⟨e, _, he⟩ := List.mem_map.mp hd
    rw [← he]
    exact dGet_dErase_self e "_id"
  · intro s pid d hd
    rw [mongo_get_one] at hd
    obtain ⟨e, _, he⟩ := Option.map_eq_some'.mp hd
    rw [← he]
    exact dGet_dErase_self e "_id"
  · intro pkField pkValue c d hd
    obtain ⟨e, _, he⟩ := List.mem_map.mp hd
    rw [← he]
    intro k hk
    exact fromCosmos_keys pkField e k hk
  · intro pkField pkValue c pid d hd
    rw [cosmos_get_one] at hd
    obtain ⟨e, _, he⟩ := Option.map_eq_some'.mp hd
    rw [← he]
    intro k hk
    exact fromCosmos_keys pkField e k hk

/-- Counterexample to C7 as stated: a client-supplied field named _x is
stored and returned verbatim by the Mongo backend — only _id is stripped,
so a returned document can carry a field starting with the underscore
prefix. -/
theorem C7_counterexample :
    mongo_add ⟨[], 0⟩ [("_x", Value.vInt 1), ("name", Value.vStr "a")] =
      some (⟨[[("_x", Value.vInt 1), ("name", Value.vStr "a"), ("id", Value.vInt 1),
        ("_id", Value.vStr "oid0")]], 1⟩,
        [("_x", Value.vInt 1), ("name", Value.vStr "a"), ("id", Value.vInt 1)])
    ∧ mongo_get_all ⟨[[("_x", Value.vInt 1), ("name", Value.vStr "a"), ("id", Value.vInt 1),
        ("_id", Value.vStr "oid0")]], 1⟩ =
        [[("_x", Value.vInt 1), ("name", Value.vStr "a"), ("id", Value.vInt 1)]]
    ∧ strStartsWith "_x" "_" = true := ⟨rfl, rfl, rfl⟩

/-- Witness for the amended C7 at concrete stores. -/
theorem C7_witness :
    dGet (dErase [("id", Value.vInt 1), ("_id", Value.vStr "x")] "_id") "_id" = none
    ∧ (∀ k ∈ dKeys (fromCosmos "storeId"
        [("id", Value.vStr "1"), ("int_id", Value.vInt 1), ("_rid", Value.vStr "r"),
         ("storeId", Value.vStr "default"), ("name", Value.vStr "tv")]),
        strStartsWith k "_" = false ∧ k ≠ "int_id" ∧ k ≠ "storeId") := by
  constructor
  · exact C7_returned_fields.1 ⟨[[("id", Value.vInt 1), ("_id", Value.vStr "x")]], 0⟩
      (dErase [("id", Value.vInt 1), ("_id", Value.vStr "x")] "_id")
      (by simp [mongo_get_all])
  · intro k hk
    exact C7_returned_fields.2.2.1 "storeId" "default"
      [[("id", Value.vStr "1"), ("int_id", Value.vInt 1), ("_rid", Value.vStr "r"),
        ("storeId", Value.vStr "default"), ("name", Value.vStr "tv")]]
      (fromCosmos "storeId"
        [("id", Value.vStr "1"), ("int_id", Value.vInt 1), ("_rid", Value.vStr "r"),
         ("storeId", Value.vStr "default"), ("name", Value.vStr "tv")])
      (by
        simp only [cosmos_get_all, List.mem_map, List.mem_filter]
        exact ⟨_, ⟨List.mem_singleton.mpr rfl, by rfl⟩, rfl⟩) k hk

-- ### C8: image upload replaces the blobs of a product id

theorem blobLookup_map_overwrite (nm ct : String) :
    ∀ st : BlobStore, st.any (fun b => b.1 = nm) = true →
      blobLookup (st.map (fun b => if b.1 = nm then (nm, ct) else b)) nm = some ct := by
  intro st
  induction st with
  | nil => intro h; simp at h
  | cons b bs ih =>
    intro h
    by_cases hb : b.1 = nm
    · rw [List.map_cons, if_pos hb, blobLookup,
        List.find?_cons_of_pos (p := fun x : String × String => decide (x.1 = nm)) _ (by simp)]
      rfl
    · rw [List.map_cons, if_neg hb, blobLookup,
        List.find?_cons_of_neg (p := fun x : String × String => decide (x.1 = nm)) _ (by simp [hb])]
      rw [List.any_cons] at h
      rw [show (decide (b.1 = nm)) = false by simp [hb], Bool.false_or] at h
      exact ih h

theorem blobLookup_map_ne (nm ct name : String) (hne : name ≠ nm) :
    ∀ st : BlobStore,
      blobLookup (st.map (fun b => if b.1 = nm then (nm, ct) else b)) name =
        blobLookup st name := by
  intro st
  induction st with
  | nil => rfl
  | cons b bs ih =>
    by_cases hb : b.1 = nm
    · rw [List.map_cons, if_pos hb, blobLookup,
        List.find?_cons_of_neg (p := fun x : String × String => decide (x.1 = name)) _ (by
          simp
          exact fun he => hne he.symm),
        blobLookup, List.find?_cons_of_neg (p := fun x : String × String => decide (x.1 = name)) _ (by
          simp
          exact fun he => hne (he.symm.trans hb))]
      exact ih
    · by_cases hbn : b.1 = name
      · rw [List.map_cons, if_neg hb, blobLookup,
          List.find?_cons_of_pos (p := fun x : String × String => decide (x.1 = name)) _ (by simp [hbn]),
          blobLookup, List.find?_cons_of_pos (p := fun x : String × String => decide (x.1 = name)) _ (by simp [hbn])]
      · rw [List.map_cons, if_neg hb, blobLookup,
          List.find?_cons_of_neg (p := fun x : String × String => decide (x.1 = name)) _ (by simp [hbn]),
          blobLookup, List.find?_cons_of_neg (p := fun x : String × String => decide (x.1 = name)) _ (by simp [hbn])]
        exact ih

theorem blobLookup_blobUpload_self (st : BlobStore) (nm ct : String) :
    blobLookup (blobUpload st nm ct) nm = some ct := by
  by_cases h : st.any (fun b => b.1 = nm) = true
  · rw [blobUpload, if_pos h]
    exact blobLookup_map_overwrite nm ct st h
  · rw [blobUpload, if_neg h, blobLookup,
      find?_append_none (fun b => decide (b.1 = nm)) st _ (fun b hb => by
        have : ¬ (b.1 = nm) := by
          intro he
          exact h (List.any_eq_true.mpr ⟨b, hb, by simp [he]⟩)
        simp [this]),
      List.find?_cons_of_pos (p := fun x : String × String => decide (x.1 = nm)) _ (by simp)]
    rfl

theorem blobLookup_blobUpload_ne (st : BlobStore) (nm ct name : String)
    (hne : name ≠ nm) :
    blobLookup (blobUpload st nm ct) name = blobLookup st name := by
  by_cases h : st.any (fun b => b.1 = nm) = true
  · rw [blobUpload, if_pos h]
    exact blobLookup_map_ne nm ct name hne st
  · rw [blobUpload, if_neg h]
    cases hq : blobLookup st name with
    | some v =>
      rw [blobLookup] at hq ⊢
      obtain ⟨b, hfind, hv⟩ := Option.map_eq_some'.mp hq
      rw [List.find?_append, hfind]
      simp [hv]
    | none =>
      rw [blobLookup] at hq ⊢
      cases hfind : st.find? (fun b => b.1 = name) with
      | some b => rw [hfind] at hq; simp at hq
      | none =>
        rw [List.find?_append, hfind]
        simp only [Option.none_or]
        rw [List.find?_cons_of_neg (p := fun x : String × String => decide (x.1 = name)) _ (by
          simp
          exact fun he => hne he.symm)]
        rfl

theorem blobLookup_filter_none (store : BlobStore) (pfx name : String)
    (h : strStartsWith name pfx = true) :
    blobLookup (store.filter (fun b => !(strStartsWith b.1 pfx))) name = none := by
  rw [blobLookup]
  rw [List.find?_eq_none.mpr (fun b hb hbn => by
    have hbp := (List.mem_filter.mp hb).2
    rw [of_decide_eq_true hbn, h] at hbp
    exact Bool.noConfusion hbp)]
  rfl

/-- C8: an upload of a file for a product id deletes every previously
stored blob whose name starts with the id followed by a dot, and stores
the file under the id concatenated with the uploaded filename's lowercased
extension, .jpg when the filename has none. -/
theorem C8_upload_replaces_images (store : BlobStore) (content filename pid : String)
    (hpid : pid ≠ "") :
    ∃ store', upload_image store (some content) filename (some pid) =
        (store', .okJson [("status", .vStr "uploaded"),
          ("filename", .vStr (pid ++ uploadExt filename))])
      ∧ blobLookup store' (pid ++ uploadExt filename) = some content
      ∧ (∀ name, strStartsWith name (pid ++ ".") = true →
          name ≠ pid ++ uploadExt filename → blobLookup store' name = none)
      ∧ (splitextExt filename = "" → uploadExt filename = ".jpg") := by
  refine ⟨blobUpload (store.filter (fun b => !(strStartsWith b.1 (pid ++ "."))))
      (pid ++ uploadExt filename) content, ?_, ?_, ?_, ?_⟩
  · simp only [upload_image, if_neg hpid]
  · exact blobLookup_blobUpload_self _ _ _
  · intro name hpref hne
    rw [blobLookup_blobUpload_ne _ _ _ _ hne]
    exact blobLookup_filter_none store _ name hpref
  · intro h0
    rw [uploadExt, h0]
    rfl

/-- Witness for C8 at a concrete blob store. -/
theorem C8_witness :
    ("7" : String) ≠ ""
    ∧ (∃ store', upload_image [("7.png", "A"), ("8.png", "B")] (some "C") "photo.PNG"
          (some "7") =
        (store', .okJson [("status", .vStr "uploaded"),
          ("filename", .vStr ("7" ++ uploadExt "photo.PNG"))])
      ∧ blobLookup store' ("7" ++ uploadExt "photo.PNG") = some "C"
      ∧ (∀ name, strStartsWith name ("7" ++ ".") = true →
          name ≠ "7" ++ uploadExt "photo.PNG" → blobLookup store' name = none)
      ∧ (splitextExt "photo.PNG" = "" → uploadExt "photo.PNG" = ".jpg")) :=
  ⟨by decide, C8_upload_replaces_images [("7.png", "A"), ("8.png", "B")] "C" "photo.PNG" "7"
    (by decide)⟩

-- ### C9: every Cosmos write path goes through the model translation

/-- The storage shape of a translated write: the partition field carries
the scoped value, the primary key is the decimal string of the integer
shadow key int_id. -/
def cosmosWriteOk (pkField pkValue : String) (d : Doc) : Prop :=
  ∃ n : Int, dGet d "int_id" = some (.vInt n)
    ∧ dGet d "id" = some (.vStr (toString n))
    ∧ dGet d pkField = some (.vStr pkValue)

theorem toCosmos_writeOk (pkField pkValue : String) (product : Doc) (n : Int)
    (hpk1 : pkField ≠ "id") (hpk2 : pkField ≠ "int_id")
    (hid : dGet product "id" = some (.vInt n)) (stored : Doc)
    (hst : toCosmos pkField pkValue product = some stored) :
    cosmosWriteOk pkField pkValue stored := by
  rw [toCosmos_of_intId pkField pkValue product n hid] at hst
  injection hst with h0
  subst h0
  refine ⟨n, ?_, ?_, ?_⟩
  · rw [dGet_dSet_ne _ "int_id" pkField _ hpk2, dGet_dSet_self]
  · rw [dGet_dSet_ne _ "id" pkField _ hpk1,
      dGet_dSet_ne _ "id" "int_id" _ (by decide), dGet_dSet_self]
  · rw [dGet_dSet_self]

theorem mem_cosmosUpsert (pkField pkValue : String) (p d : Doc) :
    ∀ c : List Doc, d ∈ cosmosUpsert pkField pkValue c p → d ∈ c ∨ d = p := by
  intro c
  induction c with
  | nil =>
    intro h
    simp [cosmosUpsert] at h
    exact Or.inr h
  | cons e es ih =>
    intro h
    by_cases he : (decide (dGet e "id" = dGet p "id") && inPartition pkField pkValue e) = true
    · rw [cosmosUpsert, if_pos he] at h
      rcases List.mem_cons.mp h with h | h
      · exact Or.inr h
      · exact Or.inl (List.mem_cons_of_mem _ h)
    · rw [cosmosUpsert, if_neg he] at h
      rcases List.mem_cons.mp h with h | h
      · exact Or.inl (List.mem_cons.mpr (Or.inl h))
      · rcases ih h with h | h
        · exact Or.inl (List.mem_cons_of_mem _ h)
        · exact Or.inr h

theorem cosmos_add_eq (pkField pkValue : String) (c : List Doc) (product : Doc) :
    ∃ newId : Int, ∃ stored : Doc,
      cosmos_add pkField pkValue c product =
        some (c ++ [stored], dSet product "id" (.vInt newId))
      ∧ toCosmos pkField pkValue (dSet product "id" (.vInt newId)) = some stored := by
  set newId : Int := (match intListMax (cosmosIntIds pkField pkValue c) with
    | some m => m + 1
    | none => 1) with hnew
  have hgid : dGet (dSet product "id" (.vInt newId)) "id" = some (.vInt newId) :=
    dGet_dSet_self product "id" _
  have htc := toCosmos_of_intId pkField pkValue (dSet product "id" (.vInt newId)) newId hgid
  refine ⟨newId, _, ?_, htc⟩
  simp only [cosmos_add, ← hnew, htc]

/-- C9: every document the partitioned backend writes — through add,
update, or seed_many — is the _to_cosmos translation of a product: it
carries the partition field set to the scoped value, the primary key as
the decimal string of the integer id, and the shadow int_id equal to that
id. -/
theorem C9_writes_translate :
    (∀ (pkField pkValue : String) (product stored : Doc) (n : Int),
      pkField ≠ "id" → pkField ≠ "int_id" →
      dGet product "id" = some (.vInt n) →
      toCosmos pkField pkValue product = some stored →
      cosmosWriteOk pkField pkValue stored)
  ∧ (∀ (pkField pkValue : String) (c : List Doc) (product : Doc)
        (c' : List Doc) (ret : Doc),
      pkField ≠ "id" → pkField ≠ "int_id" →
      cosmos_add pkField pkValue c product = some (c', ret) →
      ∀ d ∈ c', d ∈ c ∨ cosmosWriteOk pkField pkValue d)
  ∧ (∀ (pkField pkValue : String) (c : List Doc) (product : Doc)
        (c' : List Doc) (r : Option Doc),
      pkField ≠ "id" → pkField ≠ "int_id" →
      (∃ n : Int, dGet product "id" = some (.vInt n)) →
      cosmos_update pkField pkValue c product = some (c', r) →
      ∀ d ∈ c', d ∈ c ∨ cosmosWriteOk pkField pkValue d)
  ∧ (∀ (pkField pkValue : String) (products : List Doc) (c c' : List Doc),
      pkField ≠ "id" → pkField ≠ "int_id" →
      (∀ p ∈ products, ∃ n : Int, dGet p "id" = some (.vInt n)) →
      cosmos_seed_many pkField pkValue c products = some c' →
      ∀ d ∈ c', d ∈ c ∨ cosmosWriteOk pkField pkValue d) := by
  refine ⟨?_, ?_, ?_, ?_⟩
  · intro pkField pkValue product stored n hpk1 hpk2 hid hst
    exact toCosmos_writeOk pkField pkValue product n hpk1 hpk2 hid stored hst
  · intro pkField pkValue c product c' ret hpk1 hpk2 hadd d hd
    obtain ⟨newId, stored, heq, htc⟩ := cosmos_add_eq pkField pkValue c product
    rw [heq] at hadd
    injection hadd with h0
    injection h0 with h1 h2
    subst h1
    rcases List.mem_append.mp hd with hd | hd
    · exact Or.inl hd
    · rw [List.mem_singleton.mp hd]
      exact Or.inr (toCosmos_writeOk pkField pkValue _ newId hpk1 hpk2
        (dGet_dSet_self product "id" _) stored htc)
  · intro pkField pkValue c product c' r hpk1 hpk2 hidex hupd
    obtain ⟨n, hid⟩ := hidex
    rw [cosmos_update] at hupd
    simp only [hid, Option.bind_eq_bind, Option.some_bind] at hupd
    cases hget : cosmos_get_one pkField pkValue c (Value.vInt n) with
    | none =>
      rw [hget] at hupd
      simp only [Option.some.injEq, Prod.mk.injEq] at hupd
      obtain ⟨h1, h2⟩ := hupd
      subst h1
      exact fun d hd => Or.inl hd
    | some g =>
      rw [hget] at hupd
      by_cases hemp : g.isEmpty = true
      · simp [hemp] at hupd
        obtain ⟨h1, h2⟩ := hupd
        subst h1
        exact fun d hd => Or.inl hd
      · simp [hemp, toCosmos_of_intId pkField pkValue product n hid] at hupd
        obtain ⟨h1, h2⟩ := hupd
        subst h1
        intro d hd
        rcases mem_cosmosUpsert pkField pkValue _ d c hd with hd | hd
        · exact Or.inl hd
        · subst hd
          exact Or.inr (toCosmos_writeOk pkField pkValue product n hpk1 hpk2 hid _
            (toCosmos_of_intId pkField pkValue product n hid))
  · intro pkField pkValue products
    induction products with
    | nil =>
      intro c c' _ _ _ hseed d hd
      rw [cosmos_seed_many, List.foldlM_nil] at hseed
      injection hseed with h0
      rw [← h0] at hd
      exact Or.inl hd
    | cons p ps ih =>
      intro c c' hpk1 hpk2 hids hseed d hd
      obtain ⟨n, hid⟩ := hids p (List.mem_cons_self p ps)
      rw [cosmos_seed_many, List.foldlM_cons,
        toCosmos_of_intId pkField pkValue p n hid] at hseed
      simp only [Option.map_some', Option.some_bind] at hseed
      have hrec : cosmos_seed_many pkField pkValue (c ++ [dSet (dSet (dSet p "id"
          (.vStr (toString n))) "int_id" (.vInt n)) pkField (.vStr pkValue)]) ps = some c' := by
        rw [cosmos_seed_many]
        exact hseed
      rcases ih (c ++ [_]) c' hpk1 hpk2
          (fun q hq => hids q (List.mem_cons_of_mem _ hq)) hrec d hd with hd' | hd'
      · rcases List.mem_append.mp hd' with hd' | hd'
        · exact Or.inl hd'
        · rw [List.mem_singleton.mp hd']
          exact Or.inr (toCosmos_writeOk pkField pkValue p n hpk1 hpk2 hid _
            (toCosmos_of_intId pkField pkValue p n hid))
      · exact Or.inr hd'

/-- Witness for C9 at concrete writes. -/
theorem C9_witness :
    (("storeId" : String) ≠ "id" ∧ ("storeId" : String) ≠ "int_id")
    ∧ cosmosWriteOk "storeId" "default"
        (dSet (dSet (dSet [("id", Value.vInt 4), ("name", Value.vStr "tv")] "id"
          (.vStr (toString (4 : Int)))) "int_id" (.vInt 4)) "storeId" (.vStr "default"))
    ∧ (∀ d ∈ [(dSet (dSet (dSet [("id", Value.vInt 3), ("name", Value.vStr "tv")] "id"
          (.vStr (toString (3 : Int)))) "int_id" (.vInt 3)) "storeId" (.vStr "default"))],
        d ∈ ([] : List Doc) ∨ cosmosWriteOk "storeId" "default" d) := by
  refine ⟨⟨by decide, by decide⟩, ?_, ?_⟩
  · exact C9_writes_translate.1 "storeId" "default"
      [("id", Value.vInt 4), ("name", Value.vStr "tv")] _ 4 (by decide) (by decide) rfl
      (toCosmos_of_intId "storeId" "default" [("id", Value.vInt 4), ("name", Value.vStr "tv")]
        4 rfl)
  · exact C9_writes_translate.2.2.2 "storeId" "default"
      [[("id", Value.vInt 3), ("name", Value.vStr "tv")]] [] _ (by decide) (by decide)
      (fun p hp => ⟨3, by rw [List.mem_singleton.mp hp]; rfl⟩)
      (by rw [cosmos_seed_many, List.foldlM_cons,
        toCosmos_of_intId "storeId" "default" [("id", Value.vInt 3), ("name", Value.vStr "tv")]
          3 rfl]
          simp [cosmos_seed_many])

end ProductService
